import Mathlib

/-!
Verification of the Connect3 newsletter recommendation core
(`src/python_app`), as a shallow embedding in Lean 4.

Modelling conventions:
* Python floats are modelled as real numbers (`ℝ`); `math.exp` is
  `Real.exp`, `numpy.linalg.norm` is `Real.sqrt` of the sum of squares.
* Python lists are Lean `List`s; a Python dict used as a lookup table is
  modelled either as a function into `Option` or as an association list,
  as noted at each definition.
* Database rows fetched by the code (interactions, event embeddings,
  stored preferences) are passed to the Lean functions as explicit
  arguments: the Lean function models the pure computation the Python
  function performs on the fetched data.
* The external OpenAI embedding provider is an opaque argument
  `provider : String → List ℝ`.
* Timestamps: the Python code only ever uses a parsed timestamp through
  the age `(now - created_at)` in days.  An interaction therefore carries
  `days_old : Option ℝ`; `none` models a missing or unparsable
  `created_at` (both make the code keep its default decay of `1.0`).
-/

namespace Connect3

/-- Event categories, from `embeddings.py` / `categories.py`
(`CONNECT3_CATEGORIES`). -/
def CONNECT3_CATEGORIES : List String :=
  [ "academic_workshops"
  , "career_networking"
  , "social_cultural"
  , "sports_fitness"
  , "arts_music"
  , "tech_innovation"
  , "volunteering_community"
  , "food_dining"
  , "travel_adventure"
  , "health_wellness"
  , "entrepreneurship"
  , "environment_sustainability"
  , "gaming_esports" ]

/-- Embedding dimension, from `embeddings.py` (`EMBEDDING_DIM = 1536`). -/
def EMBEDDING_DIM : ℕ := 1536

/-- Number of categories, from `scoring.py` (`NUM_CATEGORIES = 13`). -/
def NUM_CATEGORIES : ℕ := 13

/-- Uniform baseline, from `scoring.py`
(`DEFAULT_CATEGORY_SCORE = 1.0 / NUM_CATEGORIES`). -/
noncomputable def DEFAULT_CATEGORY_SCORE : ℝ := 1 / (NUM_CATEGORIES : ℝ)

/-- Scoring constant, from `scoring.py` (`CLUSTER_MATCH_WEIGHT = 50`). -/
def CLUSTER_MATCH_WEIGHT : ℤ := 50

/-- Scoring constant, from `scoring.py` (`MAX_URGENCY_SCORE = 30`). -/
def MAX_URGENCY_SCORE : ℤ := 30

/-- Base interaction weights, from the dict
`{"like": 1.0, "click": 0.5, "dislike": -0.5}` that appears identically in
`embeddings.py` (`embed_user`) and `scoring.py`
(`_compute_time_decayed_preferences`); `.get(t, 0.0)` yields `0` for any
other key. -/
noncomputable def base_weight (t : String) : ℝ :=
  if t = "like" then 1
  else if t = "click" then 0.5
  else if t = "dislike" then -0.5
  else 0

/-- Model of `generate_embedding` from `embeddings.py`: a falsy `text`
(the empty string) short-circuits to the all-zeros vector of length
`EMBEDDING_DIM`; otherwise the external provider is called on the text. -/
def generate_embedding (provider : String → List ℝ) (text : String) :
    List ℝ :=
  if text = "" then List.replicate EMBEDDING_DIM 0 else provider text

/-- Model of `_urgency_score` from `scoring.py`.  The argument is the
event's parsed date expressed as `(event_date - now).days` (Python's
`timedelta.days`, an integer); `none` models an event whose
`event_date`/`timestamp` is absent or unparsable, for which the code
returns `0.0`. -/
def urgency_score (days_until : Option ℤ) : ℤ :=
  match days_until with
  | none => 0
  | some d => max 0 (MAX_URGENCY_SCORE - d)

/-- Interaction row as consumed by `embed_user` and
`_compute_time_decayed_preferences`: the selected columns are
`event_id, interaction_type, created_at`.  `days_old` is the age
`(now - created_at)` in days of a parseable timestamp; `none` models a
missing or unparsable `created_at` (the code then keeps decay `1.0`). -/
structure UserInteraction where
  event_id : Option String
  interaction_type : String
  days_old : Option ℝ

/-- Time-decay multiplier from `embed_user` / scoring: for a parseable
timestamp `exp (-decay_lambda * days_old)`, otherwise the default `1.0`. -/
noncomputable def time_decay (lam : ℝ) (days_old : Option ℝ) : ℝ :=
  match days_old with
  | some d => Real.exp (-(lam * d))
  | none => 1

/-- Per-interaction weight from `embed_user`:
`final_weight = base_weight * time_decay`. -/
noncomputable def final_weight (lam : ℝ) (i : UserInteraction) : ℝ :=
  base_weight i.interaction_type * time_decay lam i.days_old

/-- The truthy event ids of the interactions, from `embed_user`
(`[i["event_id"] for i in interactions if i.get("event_id")]` — a missing
id and the empty string are both falsy and skipped). -/
def event_ids (interactions : List UserInteraction) : List String :=
  interactions.filterMap fun i =>
    match i.event_id with
    | some s => if s = "" then none else some s
    | none => none

/-- Loop body of `embed_user`'s warm path.  The state is the accumulator
pair `(vec, total)`.  An interaction whose event id resolves to no
embedding, to a falsy (empty) one, or to one of the wrong dimension is
skipped (`continue`); otherwise `vec[idx] += val * final_weight`
componentwise and `total += abs(final_weight)`. -/
noncomputable def warm_step (D : ℕ) (embMap : String → Option (List ℝ))
    (lam : ℝ) (st : List ℝ × ℝ) (i : UserInteraction) : List ℝ × ℝ :=
  match i.event_id.bind embMap with
  | none => st
  | some e =>
    if e = [] ∨ e.length ≠ D then st
    else
      (List.zipWith (fun v x => v + x * final_weight lam i) st.1 e,
        st.2 + |final_weight lam i|)

/-- Warm-path accumulation of `embed_user`: fold of `warm_step` over the
interactions starting from `vec = [0.0] * D`, `total = 0.0`. -/
noncomputable def warm_accum (D : ℕ) (embMap : String → Option (List ℝ))
    (lam : ℝ) (interactions : List UserInteraction) : List ℝ × ℝ :=
  interactions.foldl (warm_step D embMap lam) (List.replicate D 0, 0)

/-- Category-to-description mapping of `embed_user`'s cold-start path
(`pref_mapping`), in the source's iteration order. -/
def pref_mapping : List (String × String) :=
  [ ("tech_innovation", "technology, AI, machine learning, coding")
  , ("career_networking", "career development, networking, industry connections")
  , ("academic_workshops", "academic workshops, revision sessions, study groups")
  , ("social_cultural", "social events, parties, cultural activities")
  , ("entrepreneurship", "startups, entrepreneurship, business")
  , ("sports_fitness", "sports, fitness, physical activities")
  , ("arts_music", "arts, music, creative performances, exhibitions")
  , ("volunteering_community", "volunteering, community service, charity events")
  , ("food_dining", "food, dining, cooking, culinary experiences")
  , ("travel_adventure", "travel, adventure, outdoor activities, exploration")
  , ("health_wellness", "health, wellness, mental health, self-care")
  , ("environment_sustainability", "environment, sustainability, green initiatives, climate")
  , ("gaming_esports", "gaming, esports, video games, tournaments") ]

/-- Interest text built by `embed_user`'s cold-start path.  `prefs` is the
user's stored preference row (`none` when absent); a category qualifies
when its score is a number strictly greater than `0.6`. -/
noncomputable def cold_start_text (prefs : Option (String → Option ℝ)) :
    String :=
  match prefs with
  | none => "University student interested in general university events"
  | some p =>
    let interests := pref_mapping.filterMap fun kv =>
      match p kv.1 with
      | some s => if 0.6 < s then some kv.2 else none
      | none => none
    if interests = [] then
      "University student interested in general university events"
    else
      "University student interested in: " ++ String.intercalate ", " interests

/-- Cold-start path of `embed_user`: embed the interest text. -/
noncomputable def cold_start (prefs : Option (String → Option ℝ))
    (provider : String → List ℝ) : List ℝ :=
  generate_embedding provider (cold_start_text prefs)

/-- Model of `embed_user` from `embeddings.py`.  `D` stands for the
module constant `EMBEDDING_DIM` (1536 in the source), kept as a parameter
so the function can be stated at any configured dimension; `half_life`
is `decay_half_life_days`; `embMap` models the `emb_map` dict of parsed
event embeddings fetched for the user's event ids (`none` for a missing
or unparsable embedding); `prefs` the stored preference row; `provider`
the OpenAI embedding call.  The warm branch is entered iff the
interaction list and its truthy event ids are both non-empty, and then
returns unconditionally: normalized by `total` when `total` is nonzero
(truthy), the raw accumulator otherwise. -/
noncomputable def embed_user (D : ℕ) (half_life : ℝ)
    (interactions : List UserInteraction)
    (embMap : String → Option (List ℝ)) (prefs : Option (String → Option ℝ))
    (provider : String → List ℝ) : List ℝ :=
  let lam := Real.log 2 / half_life
  if interactions.isEmpty ∨ (event_ids interactions).isEmpty then
    cold_start prefs provider
  else
    let st := warm_accum D embMap lam interactions
    if st.2 ≠ 0 then st.1.map (· / st.2) else st.1

/-- Embedding map for the spec's warm-path scenario: `e1 ↦ [1,0,0]`,
`e2 ↦ [0,1,0]`. -/
def embMapC2 : String → Option (List ℝ) := fun s =>
  if s = "e1" then some [1, 0, 0]
  else if s = "e2" then some [0, 1, 0]
  else none

/-- C2: for a user with a `like` on `e1 = [1,0,0]` and a `dislike` on
`e2 = [0,1,0]`, both at age 0, with dimension 3 and half-life 30 days,
the warm path of `embed_user` computes weights `1.0` and `-0.5` and
returns the weighted sum divided by `Σ|w| = 1.5`, i.e.
`[2/3, -1/3, 0] ≈ [0.667, -0.333, 0]`. -/
theorem embed_user_warm_example :
    final_weight (Real.log 2 / 30) ⟨some "e1", "like", some 0⟩ = 1 ∧
    final_weight (Real.log 2 / 30) ⟨some "e2", "dislike", some 0⟩ = -(1/2) ∧
    embed_user 3 30 [⟨some "e1", "like", some 0⟩, ⟨some "e2", "dislike", some 0⟩]
      embMapC2 none (fun _ => []) = [2/3, -(1/3), 0] := by
  have hlike : final_weight (Real.log 2 / 30) ⟨some "e1", "like", some 0⟩ = 1 := by
    simp [final_weight, base_weight, time_decay, Real.exp_zero]
  have hdis : final_weight (Real.log 2 / 30) ⟨some "e2", "dislike", some 0⟩ = -(1/2) := by
    simp [final_weight, base_weight, time_decay, Real.exp_zero]
    norm_num
  refine ⟨hlike, hdis, ?_⟩
  have hst : warm_accum 3 embMapC2 (Real.log 2 / 30)
      [⟨some "e1", "like", some 0⟩, ⟨some "e2", "dislike", some 0⟩] =
      ([1, -(1/2), 0], 3/2) := by
    have h21 : ("e2" : String) ≠ "e1" := by decide
    simp [warm_accum, warm_step, embMapC2, h21, hlike, hdis]
    rw [abs_of_pos (by norm_num : (0:ℝ) < 2⁻¹)]
    norm_num
  have h1 : ("e1" : String) ≠ "" := by decide
  simp only [embed_user, event_ids, List.filterMap_cons, if_neg h1,
    List.isEmpty_cons, Bool.false_or]
  norm_num [hst]

/-- Keeping only the first component of a zip keeps the first list, when
the second list is at least as long. -/
theorem zipWith_fst_of_length_le {a b : List ℝ}
    (h : a.length ≤ b.length) : List.zipWith (fun v _ => v) a b = a := by
  induction a generalizing b with
  | nil => simp
  | cons x xs ih =>
    cases b with
    | nil => simp at h
    | cons y ys =>
      simp only [List.zipWith_cons_cons, List.cons.injEq, true_and]
      exact ih (by simpa using h)

/-- Along the warm-path fold the vector keeps length `D`, the total is
non-decreasing, and a fold that leaves the total unchanged leaves the
vector unchanged as well. -/
theorem warm_accum_aux (D : ℕ) (embMap : String → Option (List ℝ)) (lam : ℝ) :
    ∀ (l : List UserInteraction) (st : List ℝ × ℝ), st.1.length = D →
      (l.foldl (warm_step D embMap lam) st).1.length = D ∧
      st.2 ≤ (l.foldl (warm_step D embMap lam) st).2 ∧
      ((l.foldl (warm_step D embMap lam) st).2 = st.2 →
        (l.foldl (warm_step D embMap lam) st).1 = st.1) := by
  intro l
  induction l with
  | nil => intro st h; exact ⟨h, le_refl _, fun _ => rfl⟩
  | cons i rest ih =>
    intro st hlen
    rw [List.foldl_cons]
    have key : warm_step D embMap lam st i = st ∨
        (∃ e : List ℝ, e.length = D ∧
          warm_step D embMap lam st i =
            (List.zipWith (fun v x => v + x * final_weight lam i) st.1 e,
              st.2 + |final_weight lam i|)) := by
      unfold warm_step
      cases hb : i.event_id.bind embMap with
      | none => exact Or.inl rfl
      | some e =>
        by_cases hguard : e = [] ∨ e.length ≠ D
        · exact Or.inl (if_pos hguard)
        · push_neg at hguard
          exact Or.inr ⟨e, hguard.2, if_neg (by push_neg; exact hguard)⟩
    rcases key with hkey | ⟨e, he, hkey⟩
    · rw [hkey]; exact ih st hlen
    · rw [hkey]
      have hlen' : (List.zipWith (fun v x => v + x * final_weight lam i)
          st.1 e).length = D := by
        rw [List.length_zipWith, hlen, he, min_self]
      have IH := ih (List.zipWith (fun v x => v + x * final_weight lam i) st.1 e,
        st.2 + |final_weight lam i|) hlen'
      refine ⟨IH.1, ?_, ?_⟩
      · exact le_trans (le_add_of_nonneg_right (abs_nonneg _)) IH.2.1
      · intro hfin
        have hle : st.2 + |final_weight lam i| ≤ st.2 :=
          le_trans IH.2.1 (le_of_eq hfin)
        have habs : |final_weight lam i| = 0 := by
          have := abs_nonneg (final_weight lam i)
          linarith
        have hw0 : final_weight lam i = 0 := abs_eq_zero.mp habs
        have hvst : List.zipWith (fun v x => v + x * final_weight lam i) st.1 e
            = st.1 := by
          rw [hw0]
          have hfun : (fun (v x : ℝ) => v + x * 0) = fun v _ => v := by
            funext v x; ring
          rw [hfun, zipWith_fst_of_length_le (by rw [hlen, he])]
        have ht'eq : st.2 + |final_weight lam i| = st.2 := by
          rw [habs, add_zero]
        rw [IH.2.2 (by rw [hfin, ht'eq]), hvst]

/-- C1 counterexample: a user with one `like` interaction whose event has
no retrievable embedding.  The interaction list and its event ids are
non-empty, every weight is skipped so `Σ|wᵢ| = 0`, and `embed_user`
returns the warm-path zero vector — not the cold-start embedding, which
for this provider would be `[1, 1, 1]`. -/
theorem embed_user_zero_weight_counterexample :
    embed_user 3 30 [⟨some "e1", "like", none⟩] (fun _ => none) none
        (fun _ => [1, 1, 1]) = [0, 0, 0] ∧
      cold_start none (fun _ => [1, 1, 1]) = [1, 1, 1] ∧
      ([0, 0, 0] : List ℝ) ≠ [1, 1, 1] := by
  refine ⟨?_, ?_, ?_⟩
  · have h1 : ("e1" : String) ≠ "" := by decide
    simp [embed_user, event_ids, warm_accum, warm_step, h1, List.replicate]
  · have h : cold_start_text none =
        "University student interested in general university events" := rfl
    rw [cold_start, h, generate_embedding, if_neg (by decide)]
  · simp

/-- C1 amended: when the interaction list and its truthy event ids are
both non-empty, `embed_user` commits to the warm path even if the total
absolute weight `Σ|wᵢ|` is `0`: it then returns the raw accumulator,
which is the all-zeros vector of length `D`, and the cold-start fallback
is never reached. -/
theorem embed_user_zero_weight_returns_zeros (D : ℕ) (H : ℝ)
    (interactions : List UserInteraction)
    (embMap : String → Option (List ℝ)) (prefs : Option (String → Option ℝ))
    (provider : String → List ℝ)
    (h1 : interactions.isEmpty = false)
    (h2 : (event_ids interactions).isEmpty = false)
    (h3 : (warm_accum D embMap (Real.log 2 / H) interactions).2 = 0) :
    embed_user D H interactions embMap prefs provider = List.replicate D 0 := by
  have haux := warm_accum_aux D embMap (Real.log 2 / H) interactions
    (List.replicate D 0, 0) (by simp)
  rw [embed_user]
  rw [if_neg (by simp [h1, h2])]
  simp only
  rw [if_neg (by simpa [warm_accum] using h3)]
  exact haux.2.2 (by simpa [warm_accum] using h3)

/-- Witness for C1 amended: a single `like` interaction on an event with
no retrievable embedding satisfies all three hypotheses, and the result
is the zero vector of length 3. -/
theorem embed_user_zero_weight_returns_zeros_witness :
    embed_user 3 30 [⟨some "e1", "like", none⟩] (fun _ => none) none
      (fun _ => [1, 1, 1]) = List.replicate 3 0 := by
  refine embed_user_zero_weight_returns_zeros 3 30 _ _ _ _ rfl ?_ ?_
  · have h1 : ("e1" : String) ≠ "" := by decide
    simp [event_ids, h1]
  · simp [warm_accum, warm_step]

/-- C9: for the empty string (the only falsy `str`), `generate_embedding`
returns the all-zeros vector of length `EMBEDDING_DIM = 1536`, whatever
the embedding provider does — the provider is not consulted. -/
theorem generate_embedding_empty_text (provider : String → List ℝ) :
    generate_embedding provider "" = List.replicate 1536 0 ∧
      (generate_embedding provider "").length = 1536 := by
  constructor
  · rfl
  · show (generate_embedding provider "").length = 1536
    rw [generate_embedding, if_pos rfl, List.length_replicate, EMBEDDING_DIM]

/-- C6: the Scorer's urgency score is `max (0, 30 - days_until)`: an event
10 days out scores 20, an event strictly more than 30 days out scores 0,
and an overdue event (negative days-until) scores strictly more than
`MAX_URGENCY_SCORE = 30`. -/
theorem urgency_score_spec :
    (∀ d : ℤ, urgency_score (some d) = max 0 (30 - d)) ∧
      urgency_score (some 10) = 20 ∧
      (∀ d : ℤ, 30 < d → urgency_score (some d) = 0) ∧
      (∀ d : ℤ, d < 0 → MAX_URGENCY_SCORE < urgency_score (some d)) := by
  refine ⟨fun d => rfl, by decide, fun d hd => ?_, fun d hd => ?_⟩
  · simp only [urgency_score, MAX_URGENCY_SCORE]
    omega
  · simp only [urgency_score, MAX_URGENCY_SCORE]
    omega

/-- Witness for C6: instantiates the quantified parts of
`urgency_score_spec` at concrete inputs (40 days out, 5 days overdue). -/
theorem urgency_score_spec_witness :
    urgency_score (some 40) = 0 ∧ MAX_URGENCY_SCORE < urgency_score (some (-5)) :=
  ⟨urgency_score_spec.2.2.1 40 (by decide), urgency_score_spec.2.2.2 (-5) (by decide)⟩

/-- Accumulator state of `_compute_time_decayed_preferences` in
`scoring.py`: the dicts `category_scores` and `category_weights` are
modelled as total functions defaulting to `0`, with `seen` tracking the
dict's key set (insertion order preserved, as in a Python dict). -/
structure PrefState where
  scores : String → ℝ
  weights : String → ℝ
  seen : List String

/-- Loop body of `_compute_time_decayed_preferences`: resolve the
interaction's event to a category via `catMap` (the `event_categories`
dict); skip a falsy (absent or empty) category; otherwise add
`base_weight * time_decay` to the category's score and `|time_decay|` to
its weight. -/
noncomputable def pref_step (catMap : String → Option String) (lam : ℝ)
    (st : PrefState) (i : UserInteraction) : PrefState :=
  match i.event_id.bind catMap with
  | none => st
  | some c =>
    if c = "" then st
    else
      { scores := fun k =>
          if k = c then
            st.scores c + base_weight i.interaction_type * time_decay lam i.days_old
          else st.scores k
      , weights := fun k =>
          if k = c then st.weights c + |time_decay lam i.days_old|
          else st.weights k
      , seen := if c ∈ st.seen then st.seen else st.seen ++ [c] }

/-- Fold of `pref_step` over the interactions, starting from empty dicts. -/
noncomputable def pref_accum (catMap : String → Option String) (lam : ℝ)
    (interactions : List UserInteraction) : PrefState :=
  interactions.foldl (pref_step catMap lam) ⟨fun _ => 0, fun _ => 0, []⟩

/-- Per-category value of the `result` dict built by
`_compute_time_decayed_preferences` before rescaling: seen categories
with positive total weight get the clamped mid-point transform
`max(0, min(1, (score/weight + 1)/2))`; every other category gets
`DEFAULT_CATEGORY_SCORE`. -/
noncomputable def pre_rescale_value (st : PrefState) (c : String) : ℝ :=
  if c ∈ st.seen then
    if 0 < st.weights c then
      max 0 (min 1 ((st.scores c / st.weights c + 1) / 2))
    else DEFAULT_CATEGORY_SCORE
  else DEFAULT_CATEGORY_SCORE

/-- The `result` dict of `_compute_time_decayed_preferences` before
rescaling, one entry per category of `CONNECT3_CATEGORIES` in order. -/
noncomputable def pre_rescale (st : PrefState) : List (String × ℝ) :=
  CONNECT3_CATEGORIES.map fun c => (c, pre_rescale_value st c)

/-- Model of `_compute_time_decayed_preferences` from `scoring.py`.
Returns the empty dict when the user has no interactions or none of them
has a truthy event id; otherwise builds the pre-rescale distribution and
rescales it to sum to 1 (falling back to the uniform distribution when
the pre-rescale total is not positive). -/
noncomputable def compute_time_decayed_preferences (half_life : ℝ)
    (interactions : List UserInteraction)
    (catMap : String → Option String) : List (String × ℝ) :=
  if interactions.isEmpty ∨ (event_ids interactions).isEmpty then []
  else
    let lam := Real.log 2 / half_life
    let result := pre_rescale (pref_accum catMap lam interactions)
    let total := (result.map (·.2)).sum
    if total ≤ 0 then
      CONNECT3_CATEGORIES.map fun c => (c, DEFAULT_CATEGORY_SCORE)
    else
      result.map fun p => (p.1, p.2 / total)

/-- Pre-rescale values are non-negative. -/
theorem pre_rescale_value_nonneg (st : PrefState) (c : String) :
    0 ≤ pre_rescale_value st c := by
  unfold pre_rescale_value
  split_ifs
  · exact le_max_left _ _
  · rw [DEFAULT_CATEGORY_SCORE]; norm_num
  · rw [DEFAULT_CATEGORY_SCORE]; norm_num

/-- Pre-rescale values are at most one. -/
theorem pre_rescale_value_le_one (st : PrefState) (c : String) :
    pre_rescale_value st c ≤ 1 := by
  unfold pre_rescale_value
  split_ifs
  · exact max_le (by norm_num) (min_le_left _ _)
  · rw [DEFAULT_CATEGORY_SCORE, NUM_CATEGORIES]; norm_num
  · rw [DEFAULT_CATEGORY_SCORE, NUM_CATEGORIES]; norm_num

/-- C4: for a user with at least one interaction carrying a truthy event
id, the distribution returned by `_compute_time_decayed_preferences` has
every value in `[0, 1]`; before rescaling every category outside the
accumulated dict gets the uniform baseline `DEFAULT_CATEGORY_SCORE = 1/13`;
and after rescaling the distribution sums to `1`. -/
theorem decayed_preferences_invariants (H : ℝ)
    (interactions : List UserInteraction) (catMap : String → Option String)
    (h1 : interactions.isEmpty = false)
    (h2 : (event_ids interactions).isEmpty = false) :
    (∀ p ∈ compute_time_decayed_preferences H interactions catMap,
      0 ≤ p.2 ∧ p.2 ≤ 1) ∧
    (∀ c, c ∉ (pref_accum catMap (Real.log 2 / H) interactions).seen →
      pre_rescale_value (pref_accum catMap (Real.log 2 / H) interactions) c =
        DEFAULT_CATEGORY_SCORE) ∧
    ((compute_time_decayed_preferences H interactions catMap).map (·.2)).sum
      = 1 := by
  have hguard : ¬(interactions.isEmpty ∨ (event_ids interactions).isEmpty) := by
    simp [h1, h2]
  have hunfold : compute_time_decayed_preferences H interactions catMap =
      (let result := pre_rescale (pref_accum catMap (Real.log 2 / H) interactions)
       let total := (result.map (·.2)).sum
       if total ≤ 0 then CONNECT3_CATEGORIES.map fun c => (c, DEFAULT_CATEGORY_SCORE)
       else result.map fun p => (p.1, p.2 / total)) := by
    rw [compute_time_decayed_preferences, if_neg hguard]
  set st := pref_accum catMap (Real.log 2 / H) interactions with hst
  set result := pre_rescale st with hresult
  set total := (result.map (·.2)).sum with htotal
  have hsecond : ∀ c, c ∉ st.seen →
      pre_rescale_value st c = DEFAULT_CATEGORY_SCORE := by
    intro c hc
    rw [pre_rescale_value, if_neg hc]
  have hvals_nonneg : ∀ x ∈ result.map (·.2), (0:ℝ) ≤ x := by
    intro x hx
    rw [hresult, pre_rescale, List.map_map] at hx
    obtain ⟨c, _, rfl⟩ := List.mem_map.mp hx
    exact pre_rescale_value_nonneg st c
  by_cases hcase : total ≤ 0
  · have hdist : compute_time_decayed_preferences H interactions catMap =
        CONNECT3_CATEGORIES.map fun c => (c, DEFAULT_CATEGORY_SCORE) := by
      rw [hunfold]; simp only; rw [if_pos hcase]
    refine ⟨?_, hsecond, ?_⟩
    · intro p hp
      rw [hdist] at hp
      obtain ⟨c, _, rfl⟩ := List.mem_map.mp hp
      constructor
      · rw [DEFAULT_CATEGORY_SCORE]; norm_num
      · rw [DEFAULT_CATEGORY_SCORE, NUM_CATEGORIES]; norm_num
    · rw [hdist, CONNECT3_CATEGORIES, DEFAULT_CATEGORY_SCORE, NUM_CATEGORIES]
      simp
      norm_num
  · push_neg at hcase
    have hdist : compute_time_decayed_preferences H interactions catMap =
        result.map fun p => (p.1, p.2 / total) := by
      rw [hunfold]; simp only; rw [if_neg (not_le.mpr hcase)]
    refine ⟨?_, hsecond, ?_⟩
    · intro p hp
      rw [hdist] at hp
      obtain ⟨q, hq, rfl⟩ := List.mem_map.mp hp
      have hq2 : q.2 ∈ result.map (·.2) := List.mem_map.mpr ⟨q, hq, rfl⟩
      have hnonneg : (0:ℝ) ≤ q.2 := hvals_nonneg _ hq2
      constructor
      · exact div_nonneg hnonneg (le_of_lt hcase)
      · rw [div_le_one hcase]
        exact List.single_le_sum hvals_nonneg _ hq2
    · rw [hdist, List.map_map]
      have hcomp : ((fun p : String × ℝ => p.2) ∘ fun p : String × ℝ =>
          (p.1, p.2 / total)) = fun p : String × ℝ => p.2 * total⁻¹ := by
        funext p; simp [div_eq_mul_inv]
      rw [hcomp, List.sum_map_mul_right]
      rw [show (List.map (fun p : String × ℝ => p.2) result).sum = total from rfl]
      exact mul_inv_cancel₀ (ne_of_gt hcase)

/-- Witness for C4: one `like` interaction whose event resolves to no
category; hypotheses hold and the theorem applies. -/
theorem decayed_preferences_invariants_witness :
    (∀ p ∈ compute_time_decayed_preferences 30 [⟨some "e1", "like", none⟩]
        (fun _ => none), 0 ≤ p.2 ∧ p.2 ≤ 1) ∧
    (∀ c, c ∉ (pref_accum (fun _ => none) (Real.log 2 / 30)
        [⟨some "e1", "like", none⟩]).seen →
      pre_rescale_value (pref_accum (fun _ => none) (Real.log 2 / 30)
        [⟨some "e1", "like", none⟩]) c = DEFAULT_CATEGORY_SCORE) ∧
    ((compute_time_decayed_preferences 30 [⟨some "e1", "like", none⟩]
        (fun _ => none)).map (·.2)).sum = 1 :=
  decayed_preferences_invariants 30 _ _ rfl (by decide)

/-- Time-decay multipliers are strictly positive (an exponential, or the
default `1.0`). -/
theorem time_decay_pos (lam : ℝ) (d : Option ℝ) : 0 < time_decay lam d := by
  unfold time_decay
  cases d with
  | none => norm_num
  | some x => exact Real.exp_pos _

/-- Along the preference fold, a category `c` whose matching interactions
are all dislikes keeps `scores c = -1/2 * weights c` with `weights c`
non-negative, positive as soon as `c` has been seen; membership of `c` in
`seen` is monotone and is forced by a matching interaction. -/
theorem dislike_only_invariant (catMap : String → Option String) (lam : ℝ)
    (c : String) (hc : c ≠ "") :
    ∀ (l : List UserInteraction) (st : PrefState),
      (∀ i ∈ l, i.event_id.bind catMap = some c →
        i.interaction_type = "dislike") →
      st.scores c = -(1/2) * st.weights c → 0 ≤ st.weights c →
      (c ∈ st.seen → 0 < st.weights c) →
      ((l.foldl (pref_step catMap lam) st).scores c =
          -(1/2) * (l.foldl (pref_step catMap lam) st).weights c ∧
        0 ≤ (l.foldl (pref_step catMap lam) st).weights c ∧
        (c ∈ (l.foldl (pref_step catMap lam) st).seen →
          0 < (l.foldl (pref_step catMap lam) st).weights c) ∧
        ((∃ i ∈ l, i.event_id.bind catMap = some c) →
          c ∈ (l.foldl (pref_step catMap lam) st).seen) ∧
        (c ∈ st.seen → c ∈ (l.foldl (pref_step catMap lam) st).seen)) := by
  intro l
  induction l with
  | nil =>
    intro st _ hs hw hseen
    exact ⟨hs, hw, hseen, by rintro ⟨i, hi, -⟩; exact absurd hi (by simp),
      fun h => h⟩
  | cons i rest ih =>
    intro st hall hs hw hseen
    rw [List.foldl_cons]
    rcases hbind : i.event_id.bind catMap with _ | d
    · have hstep : pref_step catMap lam st i = st := by
        simp [pref_step, hbind]
      rw [hstep]
      have IH := ih st (fun j hj => hall j (List.mem_cons_of_mem i hj)) hs hw hseen
      refine ⟨IH.1, IH.2.1, IH.2.2.1, ?_, IH.2.2.2.2⟩
      rintro ⟨j, hj, hjc⟩
      rcases List.mem_cons.mp hj with rfl | hj'
      · rw [hbind] at hjc; exact absurd hjc (by simp)
      · exact IH.2.2.2.1 ⟨j, hj', hjc⟩
    · by_cases hdc : d = ""
      · have hstep : pref_step catMap lam st i = st := by
          simp [pref_step, hbind, hdc]
        rw [hstep]
        have IH := ih st (fun j hj => hall j (List.mem_cons_of_mem i hj)) hs hw hseen
        refine ⟨IH.1, IH.2.1, IH.2.2.1, ?_, IH.2.2.2.2⟩
        rintro ⟨j, hj, hjc⟩
        rcases List.mem_cons.mp hj with rfl | hj'
        · rw [hbind] at hjc
          have hdceq : d = c := Option.some.inj hjc
          exact absurd (hdceq ▸ hdc) hc
        · exact IH.2.2.2.1 ⟨j, hj', hjc⟩
      · by_cases hcd : c = d
        · subst hcd
          have htype : i.interaction_type = "dislike" :=
            hall i (List.mem_cons_self i rest) hbind
          have htd := time_decay_pos lam i.days_old
          have hp1 : (pref_step catMap lam st i).scores c =
              st.scores c + base_weight i.interaction_type * time_decay lam i.days_old := by
            simp [pref_step, hbind, hdc]
          have hp2 : (pref_step catMap lam st i).weights c =
              st.weights c + |time_decay lam i.days_old| := by
            simp [pref_step, hbind, hdc]
          have hp3 : c ∈ (pref_step catMap lam st i).seen := by
            simp only [pref_step, hbind, if_neg hdc]
            split_ifs with hmem
            · exact hmem
            · exact List.mem_append_right _ (by simp)
          have hbw : base_weight "dislike" = -(1/2) := by
            unfold base_weight
            rw [if_neg (by decide), if_neg (by decide), if_pos rfl]
            norm_num
          have hs' : (pref_step catMap lam st i).scores c =
              -(1/2) * (pref_step catMap lam st i).weights c := by
            rw [hp1, hp2, htype, hbw, hs, abs_of_pos htd]; ring
          have hw' : 0 ≤ (pref_step catMap lam st i).weights c := by
            rw [hp2]
            have := abs_nonneg (time_decay lam i.days_old)
            linarith
          have hwpos : 0 < (pref_step catMap lam st i).weights c := by
            rw [hp2, abs_of_pos htd]; linarith
          have IH := ih _ (fun j hj => hall j (List.mem_cons_of_mem i hj))
            hs' hw' (fun _ => hwpos)
          exact ⟨IH.1, IH.2.1, IH.2.2.1, fun _ => IH.2.2.2.2 hp3,
            fun _ => IH.2.2.2.2 hp3⟩
        · have hp1 : (pref_step catMap lam st i).scores c = st.scores c := by
            simp [pref_step, hbind, hdc, hcd]
          have hp2 : (pref_step catMap lam st i).weights c = st.weights c := by
            simp [pref_step, hbind, hdc, hcd]
          have hseenc : c ∈ (pref_step catMap lam st i).seen ↔ c ∈ st.seen := by
            simp only [pref_step, hbind, if_neg hdc]
            split_ifs with hmem
            · exact Iff.rfl
            · simp [hcd]
          have IH := ih _ (fun j hj => hall j (List.mem_cons_of_mem i hj))
            (by rw [hp1, hp2]; exact hs) (by rw [hp2]; exact hw)
            (fun hmem => by rw [hp2]; exact hseen (hseenc.mp hmem))
          refine ⟨IH.1, IH.2.1, IH.2.2.1, ?_, ?_⟩
          · rintro ⟨j, hj, hjc⟩
            rcases List.mem_cons.mp hj with rfl | hj'
            · rw [hbind] at hjc
              exact absurd (Option.some.inj hjc).symm hcd
            · exact IH.2.2.2.1 ⟨j, hj', hjc⟩
          · intro hmem
            exact IH.2.2.2.2 (hseenc.mpr hmem)

/-- C3 amended: when every interaction of the user that resolves to a
category `c` is a `dislike` (and at least one does), the pre-rescale
time-decayed score of `c` is exactly `(-1/2 + 1)/2 = 1/4`, which is
STRICTLY GREATER than the uniform baseline `1/13` — not `≤` it.  This
holds whether or not the timestamps are parseable (the decay multiplier
is positive either way). -/
theorem dislike_only_category_quarter (catMap : String → Option String)
    (lam : ℝ) (c : String) (interactions : List UserInteraction)
    (hc : c ≠ "")
    (hall : ∀ i ∈ interactions, i.event_id.bind catMap = some c →
      i.interaction_type = "dislike")
    (hsome : ∃ i ∈ interactions, i.event_id.bind catMap = some c) :
    pre_rescale_value (pref_accum catMap lam interactions) c = 1/4 ∧
      DEFAULT_CATEGORY_SCORE < 1/4 := by
  have hacc : pref_accum catMap lam interactions =
      interactions.foldl (pref_step catMap lam) ⟨fun _ => 0, fun _ => 0, []⟩ := rfl
  have INV := dislike_only_invariant catMap lam c hc interactions
    ⟨fun _ => 0, fun _ => 0, []⟩ hall (by norm_num) le_rfl (by simp)
  rw [hacc]
  set st := interactions.foldl (pref_step catMap lam)
    ⟨fun _ => 0, fun _ => 0, []⟩ with hstdef
  have hmem : c ∈ st.seen := INV.2.2.2.1 hsome
  have hwpos : 0 < st.weights c := INV.2.2.1 hmem
  constructor
  · rw [pre_rescale_value, if_pos hmem, if_pos hwpos, INV.1]
    have hdiv : -(1/2) * st.weights c / st.weights c = -(1/2) := by
      field_simp
      ring
    rw [hdiv]
    norm_num
  · rw [DEFAULT_CATEGORY_SCORE, NUM_CATEGORIES]
    norm_num

/-- Witness for C3 amended: one `dislike` at age 0 on an event of
category `arts_music`. -/
theorem dislike_only_category_quarter_witness :
    pre_rescale_value (pref_accum
        (fun s => if s = "e1" then some "arts_music" else none)
        (Real.log 2 / 30) [⟨some "e1", "dislike", some 0⟩]) "arts_music"
      = 1/4 ∧
    DEFAULT_CATEGORY_SCORE < 1/4 := by
  refine dislike_only_category_quarter _ _ _ _ (by decide) ?_ ?_
  · intro i hi _
    rcases List.mem_cons.mp hi with rfl | h
    · rfl
    · exact absurd h (by simp)
  · refine ⟨⟨some "e1", "dislike", some 0⟩, by simp, ?_⟩
    simp

/-- Category map for the C3 counterexample: event `e1` has category
`arts_music`. -/
def catMapC3 : String → Option String :=
  fun s => if s = "e1" then some "arts_music" else none

/-- C3 counterexample: a user whose single interaction is a `dislike`
(with a parseable timestamp, age 0) on an event of category `arts_music`.
The returned time-decayed preference for `arts_music` is `13/61 ≈ 0.213`,
strictly greater than the uniform baseline `1/13 ≈ 0.077`. -/
theorem dislike_only_category_counterexample :
    (compute_time_decayed_preferences 30 [⟨some "e1", "dislike", some 0⟩]
        catMapC3).lookup "arts_music" = some (13/61) ∧
      ¬((13:ℝ)/61 ≤ DEFAULT_CATEGORY_SCORE) := by
  have hsc : (pref_accum catMapC3 (Real.log 2 / 30)
      [⟨some "e1", "dislike", some 0⟩]).scores "arts_music" = -(1/2) := by
    simp [pref_accum, pref_step, catMapC3, base_weight, time_decay]
    norm_num
  have hwt : (pref_accum catMapC3 (Real.log 2 / 30)
      [⟨some "e1", "dislike", some 0⟩]).weights "arts_music" = 1 := by
    simp [pref_accum, pref_step, catMapC3, time_decay]
  have hseen : (pref_accum catMapC3 (Real.log 2 / 30)
      [⟨some "e1", "dislike", some 0⟩]).seen = ["arts_music"] := by
    simp [pref_accum, pref_step, catMapC3]
  have hv_arts : pre_rescale_value (pref_accum catMapC3 (Real.log 2 / 30)
      [⟨some "e1", "dislike", some 0⟩]) "arts_music" = 1/4 := by
    rw [pre_rescale_value, if_pos (by rw [hseen]; simp), hwt, hsc]
    rw [if_pos one_pos]
    norm_num
  have hv_other : ∀ c : String, c ≠ "arts_music" →
      pre_rescale_value (pref_accum catMapC3 (Real.log 2 / 30)
        [⟨some "e1", "dislike", some 0⟩]) c = DEFAULT_CATEGORY_SCORE := by
    intro c hcne
    rw [pre_rescale_value, if_neg (by rw [hseen]; simp [hcne])]
  have hpre : pre_rescale (pref_accum catMapC3 (Real.log 2 / 30)
      [⟨some "e1", "dislike", some 0⟩]) =
      [ ("academic_workshops", DEFAULT_CATEGORY_SCORE)
      , ("career_networking", DEFAULT_CATEGORY_SCORE)
      , ("social_cultural", DEFAULT_CATEGORY_SCORE)
      , ("sports_fitness", DEFAULT_CATEGORY_SCORE)
      , ("arts_music", 1/4)
      , ("tech_innovation", DEFAULT_CATEGORY_SCORE)
      , ("volunteering_community", DEFAULT_CATEGORY_SCORE)
      , ("food_dining", DEFAULT_CATEGORY_SCORE)
      , ("travel_adventure", DEFAULT_CATEGORY_SCORE)
      , ("health_wellness", DEFAULT_CATEGORY_SCORE)
      , ("entrepreneurship", DEFAULT_CATEGORY_SCORE)
      , ("environment_sustainability", DEFAULT_CATEGORY_SCORE)
      , ("gaming_esports", DEFAULT_CATEGORY_SCORE) ] := by
    rw [pre_rescale, CONNECT3_CATEGORIES]
    simp only [List.map_cons, List.map_nil, hv_arts]
    rw [hv_other _ (by decide), hv_other _ (by decide), hv_other _ (by decide),
      hv_other _ (by decide), hv_other _ (by decide), hv_other _ (by decide),
      hv_other _ (by decide), hv_other _ (by decide), hv_other _ (by decide),
      hv_other _ (by decide), hv_other _ (by decide), hv_other _ (by decide)]
  have htotal : ((pre_rescale (pref_accum catMapC3 (Real.log 2 / 30)
      [⟨some "e1", "dislike", some 0⟩])).map (·.2)).sum = 61/52 := by
    rw [hpre]
    simp [DEFAULT_CATEGORY_SCORE, NUM_CATEGORIES]
    norm_num
  have hguard : ¬(([⟨some "e1", "dislike", some 0⟩] :
      List UserInteraction).isEmpty ∨
      (event_ids [⟨some "e1", "dislike", some 0⟩]).isEmpty) := by decide
  have hdist : compute_time_decayed_preferences 30
      [⟨some "e1", "dislike", some 0⟩] catMapC3 =
      (pre_rescale (pref_accum catMapC3 (Real.log 2 / 30)
        [⟨some "e1", "dislike", some 0⟩])).map
        (fun p => (p.1, p.2 / (61/52))) := by
    rw [compute_time_decayed_preferences, if_neg hguard]
    simp only [htotal]
    rw [if_neg (by norm_num)]
  constructor
  · have hb1 : ("arts_music" == "academic_workshops") = false := by decide
    have hb2 : ("arts_music" == "career_networking") = false := by decide
    have hb3 : ("arts_music" == "social_cultural") = false := by decide
    have hb4 : ("arts_music" == "sports_fitness") = false := by decide
    rw [hdist, hpre]
    simp only [List.map_cons, List.map_nil, List.lookup, hb1, hb2, hb3, hb4]
    norm_num
  · rw [DEFAULT_CATEGORY_SCORE, NUM_CATEGORIES]
    norm_num

/-- Insert-or-assign on an association list, with Python-dict semantics:
an existing key keeps its position and gets the new value, a new key is
appended. -/
def dict_upsert {α : Type} : List (String × α) → String → α → List (String × α)
  | [], k, v => [(k, v)]
  | (k', v') :: rest, k, v =>
    if k' = k then (k', v) :: rest else (k', v') :: dict_upsert rest k v

/-- Model of `TwoTowerRecommender.get_batch_recommendations` from
`recommender.py`.  `rec` models `self.get_recommendations` for one user:
`Except.error` stands for a raised exception, which the `try/except`
turns into an empty list for that user only.  The `results` dict is the
association list built by `dict_upsert`. -/
def get_batch_recommendations {α : Type} (rec : String → Except String (List α))
    (user_ids : List String) : List (String × List α) :=
  user_ids.foldl
    (fun results uid =>
      dict_upsert results uid
        (match rec uid with
         | Except.ok l => l
         | Except.error _ => []))
    []

/-- Looking up the key just upserted yields the new value. -/
theorem lookup_dict_upsert_self {α : Type} (l : List (String × α))
    (k : String) (v : α) : (dict_upsert l k v).lookup k = some v := by
  induction l with
  | nil => simp [dict_upsert, List.lookup]
  | cons p rest ih =>
    rcases p with ⟨k', v'⟩
    by_cases h : k' = k
    · subst h
      rw [dict_upsert, if_pos rfl]
      simp [List.lookup]
    · rw [dict_upsert, if_neg h]
      have hbeq : (k == k') = false := by
        simpa [beq_iff_eq] using fun hk => h hk.symm
      simp [List.lookup, hbeq, ih]

/-- Upserting a different key does not change a lookup. -/
theorem lookup_dict_upsert_ne {α : Type} (l : List (String × α))
    (k k' : String) (v : α) (h : k' ≠ k) :
    (dict_upsert l k' v).lookup k = l.lookup k := by
  induction l with
  | nil =>
    have hbeq : (k == k') = false := by
      simpa [beq_iff_eq] using fun hk => h hk.symm
    simp [dict_upsert, List.lookup, hbeq]
  | cons p rest ih =>
    rcases p with ⟨k'', v''⟩
    by_cases hk : k'' = k'
    · subst hk
      rw [dict_upsert, if_pos rfl]
      have hbeq : (k == k'') = false := by
        simpa [beq_iff_eq] using fun hkk => h hkk.symm
      simp [List.lookup, hbeq]
    · rw [dict_upsert, if_neg hk]
      by_cases hkk : k'' = k
      · subst hkk
        simp [List.lookup]
      · have hbeq : (k == k'') = false := by
          simpa [beq_iff_eq] using fun hkk' => hkk hkk'.symm
        simp [List.lookup, hbeq, ih]

/-- C7: `get_batch_recommendations` produces an entry for every requested
user id, and each user's entry depends only on that user's own
`get_recommendations` outcome: an exception yields `[]` for that user,
a success yields exactly its list — so one user's failure neither aborts
the batch nor affects any other user's result. -/
theorem get_batch_recommendations_isolation {α : Type}
    (rec : String → Except String (List α)) (user_ids : List String)
    (uid : String) (huid : uid ∈ user_ids) :
    (get_batch_recommendations rec user_ids).lookup uid =
      some (match rec uid with
            | Except.ok l => l
            | Except.error _ => []) := by
  suffices h : ∀ (acc : List (String × List α)),
      (acc.lookup uid = some (match rec uid with
        | Except.ok l => l
        | Except.error _ => []) ∨ uid ∈ user_ids) →
      (user_ids.foldl (fun results u => dict_upsert results u
        (match rec u with
         | Except.ok l => l
         | Except.error _ => [])) acc).lookup uid =
      some (match rec uid with
            | Except.ok l => l
            | Except.error _ => []) by
    exact h [] (Or.inr huid)
  clear huid
  induction user_ids with
  | nil =>
    intro acc hacc
    rcases hacc with h | h
    · simpa using h
    · exact absurd h (by simp)
  | cons u rest ih =>
    intro acc hacc
    rw [List.foldl_cons]
    by_cases hu : u = uid
    · subst hu
      exact ih _ (Or.inl (lookup_dict_upsert_self _ _ _))
    · rcases hacc with h | h
      · exact ih _ (Or.inl (by rw [lookup_dict_upsert_ne _ _ _ _ hu]; exact h))
      · rcases List.mem_cons.mp h with rfl | h'
        · exact absurd rfl hu
        · exact ih _ (Or.inr h')

/-- Witness for C7: a batch of two users where the second user's
recommendation call raises; the failing user gets `[]`, the other keeps
its own result. -/
theorem get_batch_recommendations_isolation_witness :
    (get_batch_recommendations
        (fun u => if u = "bad" then Except.error "boom" else Except.ok [u])
        ["good", "bad"]).lookup "bad" = some [] ∧
    (get_batch_recommendations
        (fun u => if u = "bad" then Except.error "boom" else Except.ok [u])
        ["good", "bad"]).lookup "good" = some ["good"] := by
  constructor
  · have h := get_batch_recommendations_isolation
      (fun u => if u = "bad" then Except.error "boom" else Except.ok [u])
      ["good", "bad"] "bad" (by simp)
    simpa using h
  · have h := get_batch_recommendations_isolation
      (fun u => if u = "bad" then Except.error "boom" else Except.ok [u])
      ["good", "bad"] "good" (by simp)
    have hg : ("good" : String) ≠ "bad" := by decide
    simpa [hg] using h

/-- Euclidean norm of a vector (`np.linalg.norm`). -/
noncomputable def vec_norm (v : List ℝ) : ℝ :=
  Real.sqrt ((v.map fun x => x * x).sum)

/-- State of a `VectorIndex` from `vector_index.py`.  The `_vectors`
matrix is the list of row vectors (`[]` models `None`); `_norms` the
pre-computed row norms; `_id_to_idx` the id-to-row dict, modelled as a
function into `Option ℕ`.  The `_dirty` flag only feeds the no-op
`_rebuild_matrix` and is omitted. -/
structure VectorIndex where
  dimension : ℕ
  ids : List String
  vectors : List (List ℝ)
  norms : List ℝ
  metadata : List (Option String)
  idToIdx : String → Option ℕ

/-- A fresh index (`VectorIndex.__init__`). -/
def VectorIndex.empty (d : ℕ) : VectorIndex :=
  ⟨d, [], [], [], [], fun _ => none⟩

/-- Model of `VectorIndex.add`: a dimension mismatch raises (leaving the
state unchanged, since the check precedes every mutation); a known id is
updated in place; a new id is appended and registered at index
`len(ids) - 1`. -/
noncomputable def VectorIndex.add (s : VectorIndex) (vid : String)
    (v : List ℝ) (m : Option String) : VectorIndex :=
  if v.length ≠ s.dimension then s
  else
    match s.idToIdx vid with
    | some idx =>
      { s with
        vectors := s.vectors.set idx v
        norms := s.norms.set idx (vec_norm v)
        metadata := s.metadata.set idx m }
    | none =>
      { s with
        ids := s.ids ++ [vid]
        metadata := s.metadata ++ [m]
        idToIdx := fun k => if k = vid then some s.ids.length else s.idToIdx k
        vectors := s.vectors ++ [v]
        norms := s.norms ++ [vec_norm v] }

/-- Model of `VectorIndex.add_batch`: all-or-nothing append.  The
dimension check runs over the whole batch before any mutation (the
Python loop validates and collects first, raising before `extend`), so a
bad batch leaves the state unchanged.  Note the append performs NO
duplicate handling: ids are blindly extended and the dict entries point
at `start_idx + i`, a later occurrence overwriting an earlier one. -/
noncomputable def VectorIndex.add_batch (s : VectorIndex)
    (entries : List (String × List ℝ × Option String)) : VectorIndex :=
  if entries = [] then s
  else if entries.any (fun e => e.2.1.length ≠ s.dimension) then s
  else
    { s with
      ids := s.ids ++ entries.map (·.1)
      metadata := s.metadata ++ entries.map (·.2.2)
      idToIdx := entries.enum.foldl
        (fun acc p => fun k =>
          if k = p.2.1 then some (s.ids.length + p.1) else acc k)
        s.idToIdx
      vectors := s.vectors ++ entries.map (·.2.1)
      norms := s.norms ++ entries.map (fun e => vec_norm e.2.1) }

/-- Model of `VectorIndex.remove`: a no-op for an unknown id; otherwise
the row is deleted everywhere, the dict key removed, and every dict
index greater than the removed row is decremented. -/
def VectorIndex.remove (s : VectorIndex) (vid : String) : VectorIndex :=
  match s.idToIdx vid with
  | none => s
  | some idx =>
    { s with
      ids := s.ids.eraseIdx idx
      metadata := s.metadata.eraseIdx idx
      vectors := s.vectors.eraseIdx idx
      norms := s.norms.eraseIdx idx
      idToIdx := fun k =>
        if k = vid then none
        else (s.idToIdx k).map fun j => if idx < j then j - 1 else j }

/-- Model of `VectorIndex.clear`. -/
def VectorIndex.clear (s : VectorIndex) : VectorIndex :=
  ⟨s.dimension, [], [], [], [], fun _ => none⟩

/-- One mutating operation on a `VectorIndex`. -/
inductive IdxOp where
  | add (vid : String) (v : List ℝ) (m : Option String)
  | addBatch (entries : List (String × List ℝ × Option String))
  | remove (vid : String)
  | clear

/-- Apply one operation. -/
noncomputable def applyOp (s : VectorIndex) : IdxOp → VectorIndex
  | IdxOp.add vid v m => s.add vid v m
  | IdxOp.addBatch entries => s.add_batch entries
  | IdxOp.remove vid => s.remove vid
  | IdxOp.clear => s.clear

/-- Apply a sequence of operations in order. -/
noncomputable def applyOps (s : VectorIndex) (ops : List IdxOp) : VectorIndex :=
  ops.foldl applyOp s

/-- The consistency invariant claimed for the index internals: all
parallel arrays have the length of `_ids`, and `_id_to_idx` maps
`_ids[i]` back to `i` for every position. -/
def IndexConsistent (s : VectorIndex) : Prop :=
  s.metadata.length = s.ids.length ∧
  s.vectors.length = s.ids.length ∧
  s.norms.length = s.ids.length ∧
  ∀ i, i < s.ids.length → s.idToIdx (s.ids.getD i "") = some i

/-- Strengthening of `IndexConsistent` that is inductive: additionally,
every key of `_id_to_idx` points at an in-range row holding that key. -/
def IndexWellFormed (s : VectorIndex) : Prop :=
  IndexConsistent s ∧
  ∀ k j, s.idToIdx k = some j → j < s.ids.length ∧ s.ids.getD j "" = k

/-- Fresh index is well-formed. -/
theorem VectorIndex.empty_wf (d : ℕ) : IndexWellFormed (VectorIndex.empty d) := by
  refine ⟨⟨rfl, rfl, rfl, ?_⟩, ?_⟩
  · intro i hi; simp [VectorIndex.empty] at hi
  · intro k j hk; simp [VectorIndex.empty] at hk

/-- In a well-formed index, an id unknown to the dict is not among the
stored ids. -/
theorem not_mem_of_idToIdx_none {s : VectorIndex} (hwf : IndexWellFormed s)
    {vid : String} (h : s.idToIdx vid = none) : vid ∉ s.ids := by
  intro hmem
  obtain ⟨⟨i, hi⟩, rfl⟩ := List.mem_iff_get.mp hmem
  have := hwf.1.2.2.2 i hi
  rw [List.getD_eq_getElem _ _ hi] at this
  simp only [List.get_eq_getElem] at h
  rw [this] at h
  exact Option.noConfusion h

/-- `add` preserves well-formedness unconditionally. -/
theorem VectorIndex.add_wf (s : VectorIndex) (vid : String) (v : List ℝ)
    (m : Option String) (hwf : IndexWellFormed s) :
    IndexWellFormed (s.add vid v m) := by
  unfold VectorIndex.add
  by_cases hdim : v.length ≠ s.dimension
  · rw [if_pos hdim]; exact hwf
  · rw [if_neg hdim]
    rcases hidx : s.idToIdx vid with _ | idx
    · -- append case
      obtain ⟨⟨hm, hv, hn, hfwd⟩, hconv⟩ := hwf
      have hnotmem : vid ∉ s.ids := not_mem_of_idToIdx_none ⟨⟨hm, hv, hn, hfwd⟩, hconv⟩ hidx
      constructor
      · refine ⟨by simp [hm], by simp [hv], by simp [hn], ?_⟩
        intro i hi
        simp only [List.length_append, List.length_cons, List.length_nil] at hi
        by_cases hilt : i < s.ids.length
        · rw [List.getD_append _ _ _ _ hilt]
          have hne : s.ids.getD i "" ≠ vid := by
            intro heq
            have hmem : s.ids.getD i "" ∈ s.ids := by
              rw [List.getD_eq_getElem _ _ hilt]
              exact List.getElem_mem hilt
            rw [heq] at hmem
            exact hnotmem hmem
          simp only [if_neg hne]
          exact hfwd i hilt
        · have hieq : i = s.ids.length := by omega
          subst hieq
          rw [List.getD_append_right _ _ _ _ (le_refl _)]
          simp
      · intro k j hk
        simp only at hk
        by_cases hkv : k = vid
        · subst hkv
          rw [if_pos rfl] at hk
          have hj : j = s.ids.length := by
            injection hk with h; omega
          subst hj
          refine ⟨by simp, ?_⟩
          rw [List.getD_append_right _ _ _ _ (le_refl _)]
          simp
        · rw [if_neg hkv] at hk
          obtain ⟨hjlt, hgd⟩ := hconv k j hk
          refine ⟨by simp; omega, ?_⟩
          rw [List.getD_append _ _ _ _ hjlt]
          exact hgd
    · -- update-in-place case: ids and the dict are untouched
      obtain ⟨⟨hm, hv, hn, hfwd⟩, hconv⟩ := hwf
      exact ⟨⟨by simp [hm], by simp [hv], by simp [hn], hfwd⟩, hconv⟩

/-- The batch dict-update fold leaves keys outside the batch untouched. -/
theorem batch_fold_not_mem (n : ℕ) :
    ∀ (entries : List (String × List ℝ × Option String)) (o : ℕ)
      (acc : String → Option ℕ) (k : String),
      k ∉ entries.map (·.1) →
      ((List.enumFrom o entries).foldl
        (fun a p => fun q => if q = p.2.1 then some (n + p.1) else a q) acc) k
      = acc k := by
  intro entries
  induction entries with
  | nil => intro o acc k _; rfl
  | cons e rest ih =>
    intro o acc k hk
    rw [List.enumFrom_cons, List.foldl_cons]
    have hk1 : k ≠ e.1 := fun h => hk (by simp [h])
    have hk2 : k ∉ rest.map (·.1) := fun h => hk (by simp [h])
    rw [ih (o + 1) _ k hk2]
    exact if_neg hk1

/-- The batch dict-update fold maps the id at batch position `j` to row
`n + o + j`, provided batch ids are distinct. -/
theorem batch_fold_mem (n : ℕ) :
    ∀ (entries : List (String × List ℝ × Option String)) (o : ℕ)
      (acc : String → Option ℕ) (j : ℕ) (hj : j < entries.length),
      (entries.map (·.1)).Nodup →
      ((List.enumFrom o entries).foldl
        (fun a p => fun q => if q = p.2.1 then some (n + p.1) else a q) acc)
        ((entries.get ⟨j, hj⟩).1)
      = some (n + o + j) := by
  intro entries
  induction entries with
  | nil => intro o acc j hj; exact absurd hj (by simp)
  | cons e rest ih =>
    intro o acc j hj hnd
    rw [List.enumFrom_cons, List.foldl_cons]
    rw [List.map_cons] at hnd
    have hndc := List.nodup_cons.mp hnd
    rcases j with _ | j'
    · simp only [List.get_eq_getElem, List.getElem_cons_zero]
      rw [batch_fold_not_mem n rest (o+1) _ _ hndc.1]
      simp
    · have hj' : j' < rest.length := by simpa using hj
      have hnd' : (rest.map (·.1)).Nodup := hndc.2
      have := ih (o + 1) (fun q => if q = e.1 then some (n + o) else acc q) j' hj' hnd'
      simp only [List.get_eq_getElem] at this ⊢
      rw [show n + (o + 1) + j' = n + o + (j' + 1) by omega] at this
      exact this

/-- `add_batch` preserves well-formedness when the batch ids are distinct
and none of them is already stored. -/
theorem VectorIndex.add_batch_wf (s : VectorIndex)
    (entries : List (String × List ℝ × Option String))
    (hwf : IndexWellFormed s)
    (hnd : (entries.map (·.1)).Nodup)
    (hfresh : ∀ e ∈ entries, e.1 ∉ s.ids) :
    IndexWellFormed (s.add_batch entries) := by
  unfold VectorIndex.add_batch
  by_cases hempty : entries = []
  · rw [if_pos hempty]; exact hwf
  · rw [if_neg hempty]
    by_cases hbad : entries.any (fun e => e.2.1.length ≠ s.dimension)
    · rw [if_pos hbad]; exact hwf
    · rw [if_neg hbad]
      obtain ⟨⟨hm, hv, hn, hfwd⟩, hconv⟩ := hwf
      set n := s.ids.length with hlen
      constructor
      · refine ⟨by simp [hm], by simp [hv], by simp [hn], ?_⟩
        intro i hi
        dsimp only
        simp only [List.length_append, List.length_map] at hi
        by_cases hilt : i < n
        · rw [List.getD_append _ _ _ _ hilt]
          have hki : s.ids.getD i "" ∈ s.ids := by
            rw [List.getD_eq_getElem _ _ hilt]
            exact List.getElem_mem hilt
          have hnotbatch : s.ids.getD i "" ∉ entries.map (·.1) := by
            intro hmem
            obtain ⟨e, he, heq⟩ := List.mem_map.mp hmem
            exact hfresh e he (heq ▸ hki)
          rw [List.enum_eq_enumFrom]
          rw [batch_fold_not_mem n entries 0 s.idToIdx _ hnotbatch]
          exact hfwd i hilt
        · have hj : i - n < entries.length := by
            simp only [not_lt] at hilt; omega
          have higd : (s.ids ++ entries.map (·.1)).getD i "" =
              (entries.get ⟨i - n, hj⟩).1 := by
            rw [List.getD_append_right _ _ _ _ (by omega)]
            rw [List.getD_eq_getElem _ _ (by simpa using hj)]
            simp
          rw [higd, List.enum_eq_enumFrom]
          rw [batch_fold_mem n entries 0 s.idToIdx (i - n) hj hnd]
          have : n + 0 + (i - n) = i := by omega
          rw [this]
      · intro k j hk
        dsimp only at hk ⊢
        by_cases hkb : k ∈ entries.map (·.1)
        · obtain ⟨⟨jk, hjk⟩, hjkeq⟩ := List.mem_iff_get.mp hkb
          have hjk' : jk < entries.length := by simpa using hjk
          have hkget : (entries.get ⟨jk, hjk'⟩).1 = k := by
            have : (entries.map (·.1)).get ⟨jk, hjk⟩ =
                (entries.get ⟨jk, hjk'⟩).1 := by
              simp
            rw [← this, hjkeq]
          rw [List.enum_eq_enumFrom, ← hkget] at hk
          rw [batch_fold_mem n entries 0 s.idToIdx jk hjk' hnd] at hk
          have hjeq : j = n + jk := by injection hk with h; omega
          subst hjeq
          refine ⟨by simp; omega, ?_⟩
          rw [List.getD_append_right _ _ _ _ (by omega)]
          have hlt : n + jk - s.ids.length < (entries.map (·.1)).length := by
            simp only [List.length_map]; omega
          rw [List.getD_eq_getElem _ _ hlt]
          simp only [List.getElem_map]
          have hidx : n + jk - s.ids.length = jk := by omega
          simp only [hidx]
          simpa [List.get_eq_getElem] using hkget
        · rw [List.enum_eq_enumFrom] at hk
          rw [batch_fold_not_mem n entries 0 s.idToIdx k hkb] at hk
          obtain ⟨hjlt, hgd⟩ := hconv k j hk
          refine ⟨by simp; omega, ?_⟩
          rw [List.getD_append _ _ _ _ hjlt]
          exact hgd

/-- `remove` preserves well-formedness. -/
theorem VectorIndex.remove_wf (s : VectorIndex) (vid : String)
    (hwf : IndexWellFormed s) : IndexWellFormed (s.remove vid) := by
  unfold VectorIndex.remove
  rcases hidx : s.idToIdx vid with _ | idx
  · exact hwf
  · obtain ⟨⟨hm, hv, hn, hfwd⟩, hconv⟩ := hwf
    obtain ⟨hidxlt, hidvid⟩ := hconv vid idx hidx
    have hlenids : (s.ids.eraseIdx idx).length = s.ids.length - 1 :=
      List.length_eraseIdx_of_lt hidxlt
    constructor
    · refine ⟨?_, ?_, ?_, ?_⟩
      · dsimp only
        rw [List.length_eraseIdx_of_lt (hm ▸ hidxlt), hlenids, hm]
      · dsimp only
        rw [List.length_eraseIdx_of_lt (hv ▸ hidxlt), hlenids, hv]
      · dsimp only
        rw [List.length_eraseIdx_of_lt (hn ▸ hidxlt), hlenids, hn]
      · intro i hi
        dsimp only at hi ⊢
        rw [hlenids] at hi
        have hi' : i < (s.ids.eraseIdx idx).length := by rw [hlenids]; omega
        rw [List.getD_eq_getElem _ _ hi', List.getElem_eraseIdx]
        by_cases hord : i < idx
        · rw [dif_pos hord]
          have hk : s.idToIdx s.ids[i] = some i := by
            have := hfwd i (by omega)
            rwa [List.getD_eq_getElem _ _ (by omega : i < s.ids.length)] at this
          have hkv : s.ids[i] ≠ vid := by
            intro heq
            rw [heq, hidx] at hk
            injection hk with h
            omega
          rw [if_neg hkv, hk, Option.map_some']
          rw [if_neg (by omega : ¬ idx < i)]
        · rw [dif_neg hord]
          have hi1 : i + 1 < s.ids.length := by omega
          have hk : s.idToIdx s.ids[i + 1] = some (i + 1) := by
            have := hfwd (i + 1) hi1
            rwa [List.getD_eq_getElem _ _ hi1] at this
          have hkv : s.ids[i + 1] ≠ vid := by
            intro heq
            rw [heq, hidx] at hk
            injection hk with h
            omega
          rw [if_neg hkv, hk, Option.map_some']
          rw [if_pos (by omega : idx < i + 1)]
          simp
    · intro k j hk
      dsimp only at hk ⊢
      by_cases hkv : k = vid
      · rw [if_pos hkv] at hk
        exact Option.noConfusion hk
      · rw [if_neg hkv] at hk
        obtain ⟨j', hj', hfj⟩ := Option.map_eq_some'.mp hk
        obtain ⟨hj'lt, hgd⟩ := hconv k j' hj'
        have hj'ne : j' ≠ idx := by
          intro heq
          rw [heq, hidvid] at hgd
          exact hkv hgd.symm
        rw [hlenids]
        by_cases hord : idx < j'
        · have hjeq : j = j' - 1 := by
            rw [if_pos hord] at hfj; omega
          subst hjeq
          refine ⟨by omega, ?_⟩
          have hjlt : j' - 1 < (s.ids.eraseIdx idx).length := by
            rw [hlenids]; omega
          rw [List.getD_eq_getElem _ _ hjlt,
            List.getElem_eraseIdx_of_ge _ _ _ hjlt (by omega)]
          simp only [Nat.sub_add_cancel (by omega : 1 ≤ j')]
          rwa [List.getD_eq_getElem _ _ hj'lt] at hgd
        · have hjeq : j = j' := by
            rw [if_neg hord] at hfj; omega
          subst hjeq
          have hj'idx : j < idx := by omega
          refine ⟨by omega, ?_⟩
          have hjlt : j < (s.ids.eraseIdx idx).length := by
            rw [hlenids]; omega
          rw [List.getD_eq_getElem _ _ hjlt,
            List.getElem_eraseIdx_of_lt _ _ _ hjlt hj'idx]
          rwa [List.getD_eq_getElem _ _ hj'lt] at hgd

/-- `clear` yields a well-formed index. -/
theorem VectorIndex.clear_wf (s : VectorIndex) :
    IndexWellFormed s.clear := by
  refine ⟨⟨rfl, rfl, rfl, ?_⟩, ?_⟩
  · intro i hi; simp [VectorIndex.clear] at hi
  · intro k j hk; simp [VectorIndex.clear] at hk

/-- Side condition under which an operation is applied: `add_batch`
requires its batch ids to be distinct and absent from the index (the
Python implementation does no duplicate handling there); the other
operations need nothing. -/
def opOk (s : VectorIndex) : IdxOp → Prop
  | IdxOp.addBatch entries =>
      (entries.map (·.1)).Nodup ∧ ∀ e ∈ entries, e.1 ∉ s.ids
  | _ => True

/-- Stepwise side conditions along a whole operation sequence. -/
def opsOk : VectorIndex → List IdxOp → Prop
  | _, [] => True
  | s, op :: rest => opOk s op ∧ opsOk (applyOp s op) rest

/-- Well-formedness is preserved along any admissible operation
sequence. -/
theorem applyOps_wf (ops : List IdxOp) :
    ∀ (s : VectorIndex), IndexWellFormed s → opsOk s ops →
      IndexWellFormed (applyOps s ops) := by
  induction ops with
  | nil => intro s hwf _; exact hwf
  | cons op rest ih =>
    intro s hwf hok
    rw [applyOps, List.foldl_cons]
    have hstep : IndexWellFormed (applyOp s op) := by
      cases op with
      | add vid v m => exact VectorIndex.add_wf s vid v m hwf
      | addBatch entries =>
        exact VectorIndex.add_batch_wf s entries hwf hok.1.1 hok.1.2
      | remove vid => exact VectorIndex.remove_wf s vid hwf
      | clear => exact VectorIndex.clear_wf s
    exact ih (applyOp s op) hstep hok.2

/-- C10 counterexample: `add "a"` followed by `add_batch` of the same id
leaves the index inconsistent — `_ids = ["a", "a"]` while `_id_to_idx`
maps `"a"` to row 1, so position 0 no longer maps back to itself. -/
theorem index_consistency_counterexample :
    ¬ IndexConsistent (applyOps (VectorIndex.empty 1)
      [IdxOp.add "a" [0] none, IdxOp.addBatch [("a", [0], none)]]) := by
  intro h
  have hids : (applyOps (VectorIndex.empty 1)
      [IdxOp.add "a" [0] none, IdxOp.addBatch [("a", [0], none)]]).ids =
      ["a", "a"] := by
    simp [applyOps, applyOp, VectorIndex.empty, VectorIndex.add,
      VectorIndex.add_batch]
  have hmap : (applyOps (VectorIndex.empty 1)
      [IdxOp.add "a" [0] none, IdxOp.addBatch [("a", [0], none)]]).idToIdx "a" =
      some 1 := by
    simp [applyOps, applyOp, VectorIndex.empty, VectorIndex.add,
      VectorIndex.add_batch]
  have h0 := h.2.2.2 0 (by rw [hids]; simp)
  rw [hids] at h0
  simp only [List.getD_cons_zero] at h0
  rw [hmap] at h0
  exact absurd h0 (by simp)

/-- C10 amended: starting from a fresh index, every operation sequence in
which each `add_batch` call has distinct ids that are not yet stored
leaves the internal state consistent: `_ids`, `_metadata`, the vector
rows and the norms all have equal length, and `_id_to_idx` maps `_ids[i]`
back to `i` for every position.  (Without that restriction on
`add_batch`, consistency fails — see the counterexample.) -/
theorem index_ops_consistent (d : ℕ) (ops : List IdxOp)
    (hok : opsOk (VectorIndex.empty d) ops) :
    IndexConsistent (applyOps (VectorIndex.empty d) ops) :=
  (applyOps_wf ops (VectorIndex.empty d) (VectorIndex.empty_wf d) hok).1

/-- Witness for C10 amended: add two vectors, batch-add a fresh third,
update the first in place, then remove one. -/
theorem index_ops_consistent_witness :
    IndexConsistent (applyOps (VectorIndex.empty 1)
      [IdxOp.add "a" [0] none, IdxOp.add "b" [1] none,
       IdxOp.addBatch [("c", [0], none)], IdxOp.add "a" [1] none,
       IdxOp.remove "b"]) := by
  apply index_ops_consistent
  refine ⟨trivial, trivial, ?_, trivial, trivial, trivial⟩
  constructor
  · simp
  · intro e he
    have : e = ("c", [0], none) := by simpa using he
    subst this
    simp [applyOp, VectorIndex.empty, VectorIndex.add]

/-- Dot product of two vectors (`vectors @ query`, row-wise). -/
noncomputable def dot_product (a b : List ℝ) : ℝ :=
  (List.zipWith (· * ·) a b).sum

/-- Stored-norm guard of `search`
(`np.where(self._norms > 0, self._norms, 1.0)`). -/
noncomputable def valid_norm (x : ℝ) : ℝ := if 0 < x then x else 1

/-- Similarity scores of `search`, one per stored row, with `⊥` standing
for numpy's `-inf` marker on excluded ids
(`scores = np.where(mask, scores, -np.inf)`).  A non-excluded row `i`
scores `dot(vectors[i], q) / (‖q‖ * valid_norm(norms[i]))`. -/
noncomputable def score_list (s : VectorIndex) (q : List ℝ)
    (ex : List String) : List (WithBot ℝ) :=
  (List.range s.ids.length).map fun i =>
    if s.ids.getD i "" ∈ ex then (⊥ : WithBot ℝ)
    else ((dot_product (s.vectors.getD i []) q) /
      (vec_norm q * valid_norm (s.norms.getD i 0)) : ℝ)

/-- Comparison used to model `np.argsort` deterministically: ascending by
score with ties broken by index.  For numpy's stable sort this is exact;
the default introsort leaves tie order unspecified, and this model
resolves it the way the stable kind does. -/
def argsort_key (scores : List (WithBot ℝ)) (i j : ℕ) : Prop :=
  scores.getD i ⊥ < scores.getD j ⊥ ∨
    (scores.getD i ⊥ = scores.getD j ⊥ ∧ i ≤ j)

noncomputable instance argsort_key_dec (scores : List (WithBot ℝ)) :
    DecidableRel (argsort_key scores) := fun i j =>
  inferInstanceAs (Decidable (_ ∨ _))

instance argsort_key_total (scores : List (WithBot ℝ)) :
    IsTotal ℕ (argsort_key scores) := by
  constructor
  intro i j
  rcases lt_trichotomy (scores.getD i ⊥) (scores.getD j ⊥) with h | h | h
  · exact Or.inl (Or.inl h)
  · rcases le_total i j with hij | hij
    · exact Or.inl (Or.inr ⟨h, hij⟩)
    · exact Or.inr (Or.inr ⟨h.symm, hij⟩)
  · exact Or.inr (Or.inl h)

instance argsort_key_trans (scores : List (WithBot ℝ)) :
    IsTrans ℕ (argsort_key scores) := by
  constructor
  intro a b c hab hbc
  rcases hab with h1 | ⟨h1, h1'⟩
  · rcases hbc with h2 | ⟨h2, _⟩
    · exact Or.inl (h1.trans h2)
    · exact Or.inl (h2 ▸ h1)
  · rcases hbc with h2 | ⟨h2, h2'⟩
    · exact Or.inl (h1 ▸ h2)
    · exact Or.inr ⟨h1.trans h2, h1'.trans h2'⟩

/-- The descending row order used by `search`:
`np.argsort(scores)[::-1]` — a stable ascending argsort, reversed. -/
noncomputable def argsort_desc (scores : List (WithBot ℝ)) : List ℕ :=
  (List.insertionSort (argsort_key scores) (List.range scores.length)).reverse

/-- Index order fed to the result loop.  The full-sort branch
(`top_k >= len(scores)`) uses the whole descending order; the
`argpartition` branch keeps the `top_k` largest under the same
deterministic tie-break and sorts them descending, which equals the
first `top_k` entries of the full descending order.  Python's
`[-top_k:]` slice with `top_k = 0` is the WHOLE array, hence the middle
case. -/
noncomputable def search_order (scores : List (WithBot ℝ)) (top_k : ℕ) :
    List ℕ :=
  if scores.length ≤ top_k then argsort_desc scores
  else if top_k = 0 then argsort_desc scores
  else (argsort_desc scores).take top_k

/-- Result-building loop of `search`: walk the candidate rows in order,
skip `-inf` (excluded) scores, emit `(id, score, metadata)` and stop as
soon as `len(results) >= top_k` AFTER an append — so even `top_k = 0`
emits one result. -/
noncomputable def collect_results (s : VectorIndex)
    (scores : List (WithBot ℝ)) :
    List ℕ → ℕ → List (String × ℝ × Option String)
  | [], _ => []
  | i :: rest, k =>
    if scores.getD i ⊥ = ⊥ then collect_results s scores rest k
    else
      (s.ids.getD i "", (scores.getD i ⊥).unbot' 0, s.metadata.getD i none) ::
        (if k ≤ 1 then [] else collect_results s scores rest (k - 1))

/-- Model of `VectorIndex.search` from `vector_index.py`: dimension
mismatch raises; an empty index or a zero-norm query returns `[]`;
otherwise the scored rows are walked in descending-score order,
excluded entries skipped, and at most `top_k` (but at least one, see
`collect_results`) results returned. -/
noncomputable def VectorIndex.search (s : VectorIndex) (q : List ℝ)
    (top_k : ℕ) (ex : List String) :
    Except String (List (String × ℝ × Option String)) :=
  if q.length ≠ s.dimension then
    Except.error "Query vector dimension mismatch"
  else if s.vectors = [] ∨ s.ids.length = 0 then Except.ok []
  else if vec_norm q = 0 then Except.ok []
  else
    Except.ok (collect_results s (score_list s q ex)
      (search_order (score_list s q ex) top_k) top_k)

/-- Length of the score list. -/
theorem score_list_length (s : VectorIndex) (q : List ℝ) (ex : List String) :
    (score_list s q ex).length = s.ids.length := by
  simp [score_list]

/-- In-range entries of the score list. -/
theorem score_list_getD (s : VectorIndex) (q : List ℝ) (ex : List String)
    (i : ℕ) (hi : i < s.ids.length) :
    (score_list s q ex).getD i ⊥ =
      if s.ids.getD i "" ∈ ex then (⊥ : WithBot ℝ)
      else ((dot_product (s.vectors.getD i []) q) /
        (vec_norm q * valid_norm (s.norms.getD i 0)) : ℝ) := by
  rw [score_list, List.getD_eq_getElem _ _ (by simpa using hi)]
  simp

/-- A non-`⊥` score implies the row is in range and its id is not
excluded. -/
theorem score_list_ne_bot (s : VectorIndex) (q : List ℝ) (ex : List String)
    (i : ℕ) (h : (score_list s q ex).getD i ⊥ ≠ ⊥) :
    i < s.ids.length ∧ s.ids.getD i "" ∉ ex := by
  by_cases hi : i < s.ids.length
  · refine ⟨hi, ?_⟩
    intro hex
    rw [score_list_getD s q ex i hi, if_pos hex] at h
    exact h rfl
  · exfalso
    apply h
    apply List.getD_eq_default
    rw [score_list_length]
    omega

/-- The result loop returns at most `max top_k 1` entries. -/
theorem collect_results_length (s : VectorIndex) (scores : List (WithBot ℝ)) :
    ∀ (l : List ℕ) (k : ℕ),
      (collect_results s scores l k).length ≤ max k 1 := by
  intro l
  induction l with
  | nil => intro k; simp [collect_results]
  | cons i rest ih =>
    intro k
    rw [collect_results]
    split_ifs with hbot hk
    · exact ih k
    · simpa using by omega
    · have := ih (k - 1)
      simp only [List.length_cons]
      omega

/-- Every emitted result comes from a candidate row with non-`⊥`
score. -/
theorem collect_results_mem (s : VectorIndex) (scores : List (WithBot ℝ)) :
    ∀ (l : List ℕ) (k : ℕ) (p : String × ℝ × Option String),
      p ∈ collect_results s scores l k →
      ∃ i ∈ l, scores.getD i ⊥ ≠ ⊥ ∧
        p = (s.ids.getD i "", (scores.getD i ⊥).unbot' 0,
          s.metadata.getD i none) := by
  intro l
  induction l with
  | nil => intro k p hp; simp [collect_results] at hp
  | cons i rest ih =>
    intro k p hp
    rw [collect_results] at hp
    split_ifs at hp with hbot hk
    · obtain ⟨j, hj, hj'⟩ := ih k p hp
      exact ⟨j, List.mem_cons_of_mem _ hj, hj'⟩
    · rcases List.mem_cons.mp hp with rfl | hp'
      · exact ⟨i, List.mem_cons_self _ _, hbot, rfl⟩
      · exact absurd hp' (by simp)
    · rcases List.mem_cons.mp hp with rfl | hp'
      · exact ⟨i, List.mem_cons_self _ _, hbot, rfl⟩
      · obtain ⟨j, hj, hj'⟩ := ih (k - 1) p hp'
        exact ⟨j, List.mem_cons_of_mem _ hj, hj'⟩

/-- Unbottoming is monotone away from `⊥`. -/
theorem unbot'_mono {a b : WithBot ℝ} (ha : a ≠ ⊥) (hb : b ≠ ⊥)
    (h : a ≤ b) : a.unbot' 0 ≤ b.unbot' 0 := by
  obtain ⟨x, rfl⟩ := Option.ne_none_iff_exists'.mp ha
  obtain ⟨y, rfl⟩ := Option.ne_none_iff_exists'.mp hb
  exact WithBot.coe_le_coe.mp h

/-- The result loop emits entries in non-increasing score order when the
candidate rows are fed in non-increasing score order. -/
theorem collect_results_sorted (s : VectorIndex)
    (scores : List (WithBot ℝ)) :
    ∀ (l : List ℕ) (k : ℕ),
      l.Pairwise (fun i j => scores.getD j ⊥ ≤ scores.getD i ⊥) →
      (collect_results s scores l k).Pairwise
        (fun p p' => p'.2.1 ≤ p.2.1) := by
  intro l
  induction l with
  | nil => intro k _; simp [collect_results]
  | cons i rest ih =>
    intro k hpw
    have hpw' := (List.pairwise_cons.mp hpw).2
    have hhead := (List.pairwise_cons.mp hpw).1
    rw [collect_results]
    split_ifs with hbot hk
    · exact ih k hpw'
    · simp
    · refine List.pairwise_cons.mpr ⟨?_, ih (k - 1) hpw'⟩
      intro p hp
      obtain ⟨j, hj, hjbot, rfl⟩ := collect_results_mem s scores rest (k - 1) p hp
      exact unbot'_mono hjbot hbot (hhead j hj)

/-- The descending order is pairwise-reversed-sorted for the argsort
key. -/
theorem argsort_desc_pairwise (scores : List (WithBot ℝ)) :
    (argsort_desc scores).Pairwise (fun i j => argsort_key scores j i) := by
  have hsorted : List.Sorted (argsort_key scores)
      (List.insertionSort (argsort_key scores)
        (List.range scores.length)) :=
    List.sorted_insertionSort _ _
  rw [argsort_desc]
  exact List.pairwise_reverse.mpr hsorted

/-- The descending order is a permutation of `range n`. -/
theorem argsort_desc_perm (scores : List (WithBot ℝ)) :
    (argsort_desc scores).Perm (List.range scores.length) := by
  rw [argsort_desc]
  exact (List.reverse_perm _).trans (List.perm_insertionSort _ _)

/-- Scores are non-increasing along the search order. -/
theorem search_order_pairwise (scores : List (WithBot ℝ)) (k : ℕ) :
    (search_order scores k).Pairwise
      (fun i j => scores.getD j ⊥ ≤ scores.getD i ⊥) := by
  have hbase : (argsort_desc scores).Pairwise
      (fun i j => scores.getD j ⊥ ≤ scores.getD i ⊥) := by
    refine (argsort_desc_pairwise scores).imp ?_
    intro i j hk
    rcases hk with h | ⟨h, _⟩
    · exact le_of_lt h
    · exact le_of_eq h
  rw [search_order]
  split_ifs
  · exact hbase
  · exact hbase
  · exact hbase.sublist (List.take_sublist _ _)

/-- C5 amended: for every `top_k ≥ 1`, a successful `search` returns at
most `top_k` results, sorted by non-increasing cosine similarity, never
containing an excluded id; and a zero-norm query returns the empty
list.  (For `top_k = 0` the loop still emits one result — see the
counterexample.) -/
theorem search_spec (s : VectorIndex) (q : List ℝ) (k : ℕ)
    (ex : List String) (res : List (String × ℝ × Option String))
    (hk : 1 ≤ k) (hres : s.search q k ex = Except.ok res) :
    res.length ≤ k ∧
    res.Pairwise (fun p p' => p'.2.1 ≤ p.2.1) ∧
    (∀ p ∈ res, p.1 ∉ ex) ∧
    (vec_norm q = 0 → res = []) := by
  unfold VectorIndex.search at hres
  split_ifs at hres with hdim hempty hnorm
  · have hres' : res = [] := by injection hres with h; exact h.symm
    subst hres'
    exact ⟨by simp, by simp, by simp, fun _ => rfl⟩
  · have hres' : res = [] := by injection hres with h; exact h.symm
    subst hres'
    exact ⟨by simp, by simp, by simp, fun _ => rfl⟩
  · have hres' : res = collect_results s (score_list s q ex)
        (search_order (score_list s q ex) k) k := by
      injection hres with h; exact h.symm
    subst hres'
    refine ⟨?_, ?_, ?_, fun h0 => absurd h0 hnorm⟩
    · have := collect_results_length s (score_list s q ex)
        (search_order (score_list s q ex) k) k
      omega
    · exact collect_results_sorted s (score_list s q ex) _ k
        (search_order_pairwise _ k)
    · intro p hp
      obtain ⟨i, _, hibot, rfl⟩ := collect_results_mem s _ _ _ p hp
      exact (score_list_ne_bot s q ex i hibot).2

/-- Closed form of the result loop: keep the non-`⊥` rows in order and
take `max top_k 1` of them. -/
theorem collect_results_eq (s : VectorIndex) (scores : List (WithBot ℝ)) :
    ∀ (l : List ℕ) (k : ℕ),
      collect_results s scores l k =
        ((l.filter fun i => decide (scores.getD i ⊥ ≠ ⊥)).take (max k 1)).map
          fun i => (s.ids.getD i "", (scores.getD i ⊥).unbot' 0,
            s.metadata.getD i none) := by
  intro l
  induction l with
  | nil => intro k; simp [collect_results]
  | cons i rest ih =>
    intro k
    rw [collect_results]
    by_cases hbot : scores.getD i ⊥ = ⊥
    · rw [if_pos hbot, List.filter_cons_of_neg
        (by simp only [decide_eq_true_eq]; intro h; exact h hbot), ih k]
    · rw [if_neg hbot, List.filter_cons_of_pos
        (by rw [decide_eq_true_eq]; exact hbot)]
      by_cases hk : k ≤ 1
      · rw [if_pos hk]
        have hmax : max k 1 = 1 := by omega
        rw [hmax]
        simp
      · rw [if_neg hk]
        have hmax : max k 1 = k := by omega
        have hmax' : max (k - 1) 1 = k - 1 := by omega
        rw [hmax, ih (k - 1), hmax']
        rw [show k = (k - 1) + 1 from by omega]
        simp only [List.take_succ_cons, List.map_cons]
        rw [show k - 1 + 1 - 1 = k - 1 from by omega]

/-- In a `Pairwise R` list, an element `a` that `R`-precedes `b`
(`¬ R b a`, `a ≠ b`) sits at a strictly earlier index. -/
theorem pairwise_indexOf_lt {α : Type} [DecidableEq α] {R : α → α → Prop} :
    ∀ {l : List α}, l.Pairwise R → ∀ {a b : α}, a ∈ l → b ∈ l → a ≠ b →
      ¬ R b a → l.indexOf a < l.indexOf b := by
  intro l
  induction l with
  | nil => intro _ a b ha; exact absurd ha (by simp)
  | cons x xs ih =>
    intro hpw a b ha hb hab hR
    by_cases hax : a = x
    · subst hax
      rw [List.indexOf_cons_self]
      have hbx : b ≠ a := fun h => hab h.symm
      have hb' : b ∈ xs := by
        rcases List.mem_cons.mp hb with h | h
        · exact absurd h hbx
        · exact h
      rw [List.indexOf_cons_ne _ (fun h => hbx h.symm)]
      exact Nat.succ_pos _
    · by_cases hbx : b = x
      · subst hbx
        have ha' : a ∈ xs := by
          rcases List.mem_cons.mp ha with h | h
          · exact absurd h hax
          · exact h
        exact absurd ((List.pairwise_cons.mp hpw).1 a ha') hR
      · have ha' : a ∈ xs := by
          rcases List.mem_cons.mp ha with h | h
          · exact absurd h hax
          · exact h
        have hb' : b ∈ xs := by
          rcases List.mem_cons.mp hb with h | h
          · exact absurd h hbx
          · exact h
        rw [List.indexOf_cons_ne _ (fun h => hax h.symm),
          List.indexOf_cons_ne _ (fun h => hbx h.symm)]
        exact Nat.succ_lt_succ (ih (List.pairwise_cons.mp hpw).2 ha' hb' hab hR)

/-- `indexOf` commutes with a map that is injective at the probed
element. -/
theorem indexOf_map_inj {α β : Type} [DecidableEq α] [DecidableEq β]
    (f : α → β) :
    ∀ (l : List α) (a : α), a ∈ l → (∀ x ∈ l, f x = f a → x = a) →
      (l.map f).indexOf (f a) = l.indexOf a := by
  intro l
  induction l with
  | nil => intro a ha; exact absurd ha (by simp)
  | cons x xs ih =>
    intro a ha hinj
    by_cases hax : x = a
    · subst hax
      rw [List.map_cons, List.indexOf_cons_self, List.indexOf_cons_self]
    · have hfax : f x ≠ f a := by
        intro h
        exact hax (hinj x (List.mem_cons_self _ _) h)
      have ha' : a ∈ xs := by
        rcases List.mem_cons.mp ha with h | h
        · exact absurd h.symm hax
        · exact h
      rw [List.map_cons, List.indexOf_cons_ne _ hfax,
        List.indexOf_cons_ne _ hax,
        ih a ha' (fun y hy => hinj y (List.mem_cons_of_mem _ hy))]

/-- The search order is pairwise-reversed-sorted for the argsort key. -/
theorem search_order_pairwise_key (scores : List (WithBot ℝ)) (k : ℕ) :
    (search_order scores k).Pairwise
      (fun i j => argsort_key scores j i) := by
  rw [search_order]
  split_ifs
  · exact argsort_desc_pairwise scores
  · exact argsort_desc_pairwise scores
  · exact (argsort_desc_pairwise scores).sublist (List.take_sublist _ _)

/-- Members of the search order are in-range row indices. -/
theorem search_order_mem_lt (scores : List (WithBot ℝ)) (k : ℕ) (i : ℕ)
    (hi : i ∈ search_order scores k) : i < scores.length := by
  have hperm := argsort_desc_perm scores
  have : i ∈ argsort_desc scores := by
    rw [search_order] at hi
    split_ifs at hi
    · exact hi
    · exact hi
    · exact (List.take_sublist _ _).mem hi
  exact List.mem_range.mp (hperm.mem_iff.mp this)

/-- C8 amended: when two stored rows `i < j` tie on similarity (both
retained, neither excluded), `search` returns row `j`'s entry BEFORE row
`i`'s — tied entries come out in REVERSE insertion order, because the
code reverses an ascending argsort (`np.argsort(scores)[::-1]`). -/
theorem search_tie_reverse_insertion (s : VectorIndex) (q : List ℝ)
    (k : ℕ) (ex : List String)
    (res : List (String × ℝ × Option String)) (i j : ℕ)
    (hres : s.search q k ex = Except.ok res)
    (hnodup : s.ids.Nodup) (hij : i < j) (hjn : j < s.ids.length)
    (htie : (score_list s q ex).getD i ⊥ = (score_list s q ex).getD j ⊥)
    (hi_mem : s.ids.getD i "" ∈ res.map (·.1))
    (hj_mem : s.ids.getD j "" ∈ res.map (·.1)) :
    (res.map (·.1)).indexOf (s.ids.getD j "") <
      (res.map (·.1)).indexOf (s.ids.getD i "") := by
  have hin : i < s.ids.length := lt_trans hij hjn
  unfold VectorIndex.search at hres
  split_ifs at hres with hdim hempty hnorm
  · exfalso
    have : res = [] := by injection hres with h; exact h.symm
    subst this
    exact absurd hi_mem (by simp)
  · exfalso
    have : res = [] := by injection hres with h; exact h.symm
    subst this
    exact absurd hi_mem (by simp)
  · have hres' : res = collect_results s (score_list s q ex)
        (search_order (score_list s q ex) k) k := by
      injection hres with h; exact h.symm
    subst hres'
    set scores := score_list s q ex with hscoresdef
    set u := ((search_order scores k).filter
      fun x => decide (scores.getD x ⊥ ≠ ⊥)).take (max k 1) with hudef
    have hmapids : (collect_results s scores (search_order scores k) k).map
        (·.1) = u.map fun x => s.ids.getD x "" := by
      rw [collect_results_eq, ← hudef, List.map_map]
      rfl
    have husub : u.Sublist (search_order scores k) :=
      (List.take_sublist _ _).trans (List.filter_sublist _)
    have hult : ∀ x ∈ u, x < s.ids.length := by
      intro x hx
      have := search_order_mem_lt scores k x (husub.mem hx)
      rwa [hscoresdef, score_list_length] at this
    have hinj : ∀ x ∈ u, ∀ y, y < s.ids.length →
        s.ids.getD x "" = s.ids.getD y "" → x = y := by
      intro x hx y hy heq
      have hxlt := hult x hx
      rw [List.getD_eq_getElem _ _ hxlt, List.getD_eq_getElem _ _ hy] at heq
      exact (List.Nodup.getElem_inj_iff hnodup).mp heq
    have hmem_u : ∀ y, y < s.ids.length →
        (s.ids.getD y "" ∈ u.map fun x => s.ids.getD x "") → y ∈ u := by
      intro y hy hmem
      obtain ⟨x, hx, hxy⟩ := List.mem_map.mp hmem
      have := hinj x hx y hy hxy
      exact this ▸ hx
    rw [hmapids] at hi_mem hj_mem ⊢
    have hiu : i ∈ u := hmem_u i hin hi_mem
    have hju : j ∈ u := hmem_u j hjn hj_mem
    have hupw : u.Pairwise (fun a b => argsort_key scores b a) :=
      (search_order_pairwise_key scores k).sublist husub
    have hnkey : ¬ argsort_key scores j i := by
      rintro (hlt | ⟨-, hle⟩)
      · rw [htie] at hlt
        exact lt_irrefl _ hlt
      · omega
    have hji : j ≠ i := by omega
    have hposition := pairwise_indexOf_lt hupw hju hiu hji hnkey
    rw [indexOf_map_inj _ u j hju (fun x hx h => hinj x hx j hjn h),
      indexOf_map_inj _ u i hiu (fun x hx h => hinj x hx i hin h)]
    exact hposition

/-- One-entry index (`"a" ↦ [1]`, dimension 1) for concrete search
evaluations. -/
noncomputable def idxA : VectorIndex :=
  ⟨1, ["a"], [[1]], [1], [none], fun s => if s = "a" then some 0 else none⟩

/-- Two-entry index with identical vectors (`"a" ↦ [1]` inserted first,
`"b" ↦ [1]` second) for tie-break evaluations. -/
noncomputable def idxAB : VectorIndex :=
  ⟨1, ["a", "b"], [[1], [1]], [1, 1], [none, none],
    fun s => if s = "a" then some 0 else if s = "b" then some 1 else none⟩

/-- Norm of the query `[1]`. -/
theorem vec_norm_one : vec_norm [(1:ℝ)] = 1 := by
  rw [vec_norm]
  simp

/-- Scores of `idxA` against query `[1]`, nothing excluded. -/
theorem idxA_scores : score_list idxA [1] [] = [(1 : WithBot ℝ)] := by
  rw [score_list]
  simp [idxA, dot_product, valid_norm, vec_norm_one, List.range_succ]

/-- Scores of `idxAB` against query `[1]`: a perfect tie. -/
theorem idxAB_scores :
    score_list idxAB [1] [] = [(1 : WithBot ℝ), (1 : WithBot ℝ)] := by
  rw [score_list]
  simp [idxAB, dot_product, valid_norm, vec_norm_one, List.range_succ]

/-- Descending argsort of the tied score pair: reverse insertion order. -/
theorem argsort_desc_tie :
    argsort_desc [(1 : WithBot ℝ), (1 : WithBot ℝ)] = [1, 0] := by
  have hk01 : argsort_key [(1 : WithBot ℝ), (1 : WithBot ℝ)] 0 1 :=
    Or.inr ⟨rfl, by norm_num⟩
  rw [argsort_desc]
  have hrange : List.range
      ([(1 : WithBot ℝ), (1 : WithBot ℝ)]).length = [0, 1] := by
    simp [List.range_succ]
  rw [hrange]
  rw [show List.insertionSort
      (argsort_key [(1 : WithBot ℝ), (1 : WithBot ℝ)]) [0, 1] =
      ([0, 1] : List ℕ) from by
    simp [List.insertionSort, List.orderedInsert, if_pos hk01]]
  rfl

/-- Full evaluation of `search` on the one-entry index with `top_k = 1`. -/
theorem idxA_search_one :
    idxA.search [1] 1 [] = Except.ok [("a", (1:ℝ), (none : Option String))] := by
  rw [VectorIndex.search, if_neg (by simp [idxA]), if_neg (by simp [idxA]),
    if_neg (by rw [vec_norm_one]; norm_num), idxA_scores]
  have horder : search_order [(1 : WithBot ℝ)] 1 = [0] := by
    rw [search_order, if_pos (by simp)]
    rw [argsort_desc]
    simp [List.insertionSort, List.orderedInsert]
  rw [horder]
  rw [collect_results, if_neg (by simp)]
  simp [collect_results, idxA]

/-- Full evaluation of `search` on the one-entry index with `top_k = 0`:
one result is still returned (the break fires only after an append). -/
theorem idxA_search_zero :
    idxA.search [1] 0 [] = Except.ok [("a", (1:ℝ), (none : Option String))] := by
  rw [VectorIndex.search, if_neg (by simp [idxA]), if_neg (by simp [idxA]),
    if_neg (by rw [vec_norm_one]; norm_num), idxA_scores]
  have horder : search_order [(1 : WithBot ℝ)] 0 = [0] := by
    rw [search_order, if_neg (by simp), if_pos rfl]
    rw [argsort_desc]
    simp [List.insertionSort, List.orderedInsert]
  rw [horder]
  rw [collect_results, if_neg (by simp)]
  simp [collect_results, idxA]

/-- Full evaluation of `search` on the tied two-entry index with
`top_k = 2`: the later insertion `"b"` is returned first. -/
theorem idxAB_search :
    idxAB.search [1] 2 [] = Except.ok
      [("b", (1:ℝ), (none : Option String)),
       ("a", (1:ℝ), (none : Option String))] := by
  rw [VectorIndex.search, if_neg (by simp [idxAB]), if_neg (by simp [idxAB]),
    if_neg (by rw [vec_norm_one]; norm_num), idxAB_scores]
  have horder : search_order
      [(1 : WithBot ℝ), (1 : WithBot ℝ)] 2 = [1, 0] := by
    rw [search_order, if_pos (by simp)]
    exact argsort_desc_tie
  rw [horder]
  rw [collect_results, if_neg (by simp)]
  rw [collect_results, if_neg (by simp)]
  simp [collect_results, idxAB]

/-- C5 counterexample: with `top_k = 0` the search on a one-entry index
returns ONE result — the claim's "at most top_k results" fails at
`top_k = 0`, because the loop breaks only after appending. -/
theorem search_topk_zero_counterexample :
    idxA.search [1] 0 [] = Except.ok [("a", (1:ℝ), (none : Option String))] ∧
      ¬([("a", (1:ℝ), (none : Option String))].length ≤ 0) :=
  ⟨idxA_search_zero, by simp⟩

/-- Witness for C5 amended: instantiates `search_spec` on the one-entry
index with `top_k = 1`. -/
theorem search_spec_witness :
    [("a", (1:ℝ), (none : Option String))].length ≤ 1 ∧
    List.Pairwise (fun p p' : String × ℝ × Option String => p'.2.1 ≤ p.2.1)
      [("a", (1:ℝ), (none : Option String))] ∧
    (∀ p ∈ [("a", (1:ℝ), (none : Option String))],
      p.1 ∉ ([] : List String)) ∧
    (vec_norm [1] = 0 → [("a", (1:ℝ), (none : Option String))] = []) :=
  search_spec idxA [1] 1 [] _ (by norm_num) idxA_search_one

/-- C8 counterexample: two entries with identical vectors, `"a"` inserted
before `"b"`, tie perfectly on similarity, yet `search` returns `"b"`
first — the reverse of insertion order. -/
theorem search_tie_counterexample :
    idxAB.search [1] 2 [] = Except.ok
        [("b", (1:ℝ), (none : Option String)),
         ("a", (1:ℝ), (none : Option String))] ∧
      ([("b", (1:ℝ), (none : Option String)),
        ("a", (1:ℝ), (none : Option String))].map (·.1) = ["b", "a"]) ∧
      (["b", "a"] : List String) ≠ ["a", "b"] :=
  ⟨idxAB_search, by simp, by decide⟩

/-- Witness for C8 amended: instantiates `search_tie_reverse_insertion`
on the tied two-entry index (rows 0 and 1). -/
theorem search_tie_reverse_insertion_witness :
    ([("b", (1:ℝ), (none : Option String)),
      ("a", (1:ℝ), (none : Option String))].map (·.1)).indexOf
        (idxAB.ids.getD 1 "") <
      ([("b", (1:ℝ), (none : Option String)),
        ("a", (1:ℝ), (none : Option String))].map (·.1)).indexOf
        (idxAB.ids.getD 0 "") := by
  refine search_tie_reverse_insertion idxAB [1] 2 [] _ 0 1 idxAB_search
    (by simp [idxAB]) (by norm_num) (by simp [idxAB]) ?_ ?_ ?_
  · rw [idxAB_scores]
    rfl
  · simp [idxAB]
  · simp [idxAB]

end Connect3
